import Mathlib

/-!
# Verification of the Louvain community-detection core
  (`src/graph_tool/community/__init__.py`: `louvain`, `louvain_step`,
   `deltas`, `reverse_dict`)

Shallow embedding of the modularity-maximisation core of the module.
Conventions used throughout:

* Vertices are natural numbers `0 .. n-1`; a graph is a vertex count
  together with an undirected edge list (self-loops and parallel edges
  allowed) and the directedness flag exposed by the external graph
  abstraction.  An edge is identified by its index in the list, which
  plays the role of the edge descriptor used as key of an edge property
  map.
* Python floats are modelled by exact rationals `ℚ`.
* Optional property maps (`weight=None`, `kw=None`, `partition=None`,
  `m=None`) are modelled by `Option`; a supplied property-map object is
  truthy in Python, and a float is falsy exactly when it is `0.0` or
  `None`, which the embedding reproduces.
* Fallible Python code is modelled by the result type `Res`; the
  constructors of `PyErr` name the runtime exceptions that the source
  can raise:
    - `noneSub`  : `TypeError` from subscripting `None`
      (`weight[e]` at lines 485/488 when `weight is None`);
    - `setSub`   : `TypeError` from subscripting a `set`
      (`c2v[new_community][0]` at line 574);
    - `keyErr`   : `KeyError` from `set.remove` on an absent element
      (line 517);
    - `zeroDiv`  : `ZeroDivisionError` from the division at line 585;
    - `invalidKind` : the `TypeError('Method must be used on graph_tool
      undirected graphs')` raised by `louvain` for a directed input.
* The unbounded `while changed:` loop of `louvain_step` is modelled
  with explicit fuel; `none` means the fuel was exhausted, i.e. the
  observed prefix of the run neither returned nor raised.
* Python `set` objects are modelled by duplicate-free lists (`add`
  inserts only when absent, `remove` erases); only membership and
  iteration are used by the source, and where the source iterates over
  a set whose order Python leaves unspecified, the embedding fixes the
  first-insertion order.
-/

/-- Python exceptions that the embedded code can raise. -/
inductive PyErr where
  | noneSub : PyErr
  | setSub : PyErr
  | keyErr : PyErr
  | zeroDiv : PyErr
  | invalidKind : PyErr
deriving DecidableEq, Repr

/-- Result of running a fallible piece of Python code. -/
inductive Res (α : Type) where
  | ok : α → Res α
  | error : PyErr → Res α
deriving DecidableEq, Repr

/-- Monadic fold over a list, stopping at the first raised exception. -/
def foldM {σ α : Type} (f : σ → α → Res σ) : σ → List α → Res σ
  | s, [] => .ok s
  | s, a :: l =>
    match f s a with
    | .error e => .error e
    | .ok s' => foldM f s' l

/-- An undirected graph as exposed by the external graph abstraction:
`n` vertices `0 .. n-1`, an edge list (the index in the list is the edge
descriptor), and the directedness flag. -/
structure UGraph where
  n : Nat
  edges : List (Nat × Nat)
  directed : Bool
deriving DecidableEq, Repr

/-- Edge-weight lookup: an absent map (`weight=None`) is only ever read
through `degree_property_map`, which treats every edge as weight 1. -/
def wval (w? : Option (Nat → ℚ)) (i : Nat) : ℚ :=
  match w? with
  | some w => w i
  | none => 1

/-- The incident edges of `x` in an indexed edge list, as pairs
`(edge index, target seen from x)`; an edge joining `x` to itself
occurs once, with target `x`. -/
def incidL (x : Nat) : List (Nat × (Nat × Nat)) → List (Nat × Nat)
  | [] => []
  | ie :: t =>
    if ie.2.1 = x then (ie.1, ie.2.2) :: incidL x t
    else if ie.2.2 = x then (ie.1, ie.2.1) :: incidL x t
    else incidL x t

/-- `v.all_edges()`: the incident edges of `x`, as pairs
`(edge index, target seen from x)`; a self-loop occurs once, with
target `x` itself. -/
def incident (g : UGraph) (x : Nat) : List (Nat × Nat) :=
  incidL x g.edges.enum

/-- `set(v.all_neighbours()) - {v}`: the deduplicated neighbours of `x`
other than `x` itself (the source removes `v` from its own neighbour
set at lines 463-465). -/
def neighSet (g : UGraph) (x : Nat) : List Nat :=
  (((incident g x).map fun it => it.2).dedup).filter fun t => t ≠ x

/-- `g.degree_property_map('total', weight)`: the weighted degree of a
vertex, a self-loop counting twice. -/
def kwOf (g : UGraph) (w? : Option (Nat → ℚ)) (v : Nat) : ℚ :=
  ((incident g v).map fun it => (if it.2 = v then 2 else 1) * wval w? it.1).sum

/-- `sum(kw.a)` and `sum([kw[v] for v in g.vertices()])`: the sum of the
(weighted) degrees of all vertices, i.e. twice the total edge weight. -/
def sumKw (g : UGraph) (kw : Nat → ℚ) : ℚ :=
  ((List.range g.n).map kw).sum

/-- `reverse_dict(partition, g.vertices())`: community id ↦ set of the
vertices currently holding it (the `c2v` reverse index). -/
def reverse_dict (part : List Nat) (n : Nat) : Nat → List Nat :=
  (List.range n).foldl
    (fun f v => fun c => if c = part.getD v 0 then f c ++ [v] else f c)
    (fun _ => [])

/-- `if not kw: kw = g.degree_property_map('total', w)` (lines 449-450
and 566-568): the effective degree map; a supplied property map is
always truthy. -/
def optKw (g : UGraph) (w? kw? : Option (Nat → ℚ)) : Nat → ℚ :=
  match kw? with
  | some k => k
  | none => kwOf g w?

/-- `if not m: m = ...` (lines 456-457 and 582-583): the effective `m`;
a float is falsy when it is `None` or `0.0`, in which case `m` is
recomputed as the sum of all degrees. -/
def effM (g : UGraph) (kw : Nat → ℚ) (m? : Option ℚ) : ℚ :=
  match m? with
  | some mv => if mv = 0 then sumKw g kw else mv
  | none => sumKw g kw

/-- Lines 573-576 of `deltas`: the raw weight of the edges from `x` to
the candidate community.  The weighted branch (line 574) subscripts the
set `c2v[new_community]` with `[0]` inside the comprehension filter and
therefore raises `TypeError` as soon as `x.all_edges()` yields a first
edge; the unweighted branch counts 1 per qualifying edge. -/
def deltaRaw (g : UGraph) (x : Nat) (c2v : Nat → List Nat) (nc : Nat)
    (w? : Option (Nat → ℚ)) : Res ℚ :=
  match w? with
  | some _ => if incident g x = [] then .ok 0 else .error .setSub
  | none => .ok (((incident g x).filter fun it => it.2 ∈ c2v nc).length : ℚ)

/-- `deltas(g, x, partition, c2v, new_community, s2, d, w, kw, m)`
(lines 524-586).  The source returns the tuple `(deltaq, kw, m)`; its
only caller reads component 0 and discards the rest (`deltaq[0]`), and
`kw`/`m` are returned exactly as determined here, so the embedding
returns the gain alone.  The division at line 585 raises
`ZeroDivisionError` when the effective `m` is zero. -/
def deltas (g : UGraph) (x : Nat) (c2v : Nat → List Nat) (nc : Nat)
    (s2 d : ℚ) (w? : Option (Nat → ℚ)) (kw? : Option (Nat → ℚ))
    (m? : Option ℚ) : Res ℚ :=
  match deltaRaw g x c2v nc w? with
  | .error e => .error e
  | .ok delta0 =>
    if effM g (optKw g w? kw?) m? = 0 then .error .zeroDiv
    else
      .ok (2 * ((delta0 - d) - (optKw g w? kw? x / effM g (optKw g w? kw?) m?) *
        (((c2v nc).map (optKw g w? kw?)).sum - s2 + optKw g w? kw? x)) /
        effM g (optKw g w? kw?) m?)

/-- Mutable state of one local-search sweep: the working partition
`new_partition` (index `v` holds the community of vertex `v`), the
reverse index `c2v`, and the `changed` flag. -/
structure SweepSt where
  part : List Nat
  c2v : Nat → List Nat
  changed : Bool

/-- Lines 485-488: the weight `d` of the edges from `v` into its own
current community, minus the weight of a self-loop of `v` if present.
`inCur` is the comprehension's underlying list, `loop?` the result of
`g.edge(v,v)`.  With `weight=None` the subscript `weight[e]` raises
`TypeError` as soon as either list comprehension is non-empty. -/
def dCompute (w? : Option (Nat → ℚ)) (inCur : List (Nat × Nat))
    (loop? : Option (Nat × (Nat × Nat))) : Res ℚ :=
  match w? with
  | some w =>
    let d := (inCur.map fun it => w it.1).sum
    match loop? with
    | some ie => .ok (d - w ie.1)
    | none => .ok d
  | none =>
    match inCur with
    | [] =>
      match loop? with
      | some _ => .error .noneSub
      | none => .ok 0
    | _ :: _ => .error .noneSub

/-- `g.edge(v, v)`: the first self-loop at `v`, if any. -/
def selfLoop (g : UGraph) (v : Nat) : Option (Nat × (Nat × Nat)) :=
  g.edges.enum.find? fun ie => ie.2.1 = v && ie.2.2 = v

/-- Lines 494-497: the set of communities currently held by the
neighbours of `v`, with the community of `v` itself removed. -/
def candsOf (st : SweepSt) (g : UGraph) (v : Nat) : List Nat :=
  (((neighSet g v).map fun t => st.part.getD t 0).dedup).filter
    fun c => c ≠ st.part.getD v 0

/-- Lines 500-512: scan the candidate communities, keeping the first
candidate whose gain strictly exceeds the best gain seen so far
(`increase` starts at `(0.0,)`). -/
def bestCand (g : UGraph) (x : Nat) (c2v : Nat → List Nat) (s2 d : ℚ)
    (w? : Option (Nat → ℚ)) (kw : Nat → ℚ) (m : ℚ)
    (cands : List Nat) (init : ℚ × Nat) : Res (ℚ × Nat) :=
  foldM
    (fun acc nc =>
      match deltas g x c2v nc s2 d w? (some kw) (some m) with
      | .error e => .error e
      | .ok dq => .ok (if dq > acc.1 then (dq, nc) else acc))
    init cands

/-- The reverse index after the move of lines 517 and 519:
`c2v[current_comm].remove(v)` followed by the set-`add`
`c2v[newcom].add(v)` (which inserts only when absent). -/
def c2vAfterMove (c2v : Nat → List Nat) (v current newcom : Nat) :
    Nat → List Nat := fun c =>
  if c = newcom then
    (if v ∈ (if newcom = current then (c2v current).erase v else c2v newcom)
     then (if newcom = current then (c2v current).erase v else c2v newcom)
     else (if newcom = current then (c2v current).erase v else c2v newcom) ++ [v])
  else if c = current then (c2v current).erase v else c2v c

/-- Lines 517-520: apply the accepted move, mutating `c2v` (a `remove`
followed by a set-`add`) and the working partition.  Python's
`set.remove` raises `KeyError` when the element is absent. -/
def moveStep (st : SweepSt) (v current newcom : Nat) : Res SweepSt :=
  if v ∈ st.c2v current then
    .ok ⟨st.part.set v newcom, c2vAfterMove st.c2v v current newcom, true⟩
  else .error .keyErr

/-- Line 485's comprehension list: the incident edges of `v` whose
target lies in `v`'s own current community. -/
def inCurOf (st : SweepSt) (g : UGraph) (v : Nat) : List (Nat × Nat) :=
  (incident g v).filter fun it => it.2 ∈ st.c2v (st.part.getD v 0)

/-- Line 483: `s2`, the degree mass of `v`'s current community without
`v` itself. -/
def s2Of (st : SweepSt) (kw : Nat → ℚ) (v : Nat) : ℚ :=
  ((st.c2v (st.part.getD v 0)).map kw).sum - kw v

/-- Lines 475-520: the evaluation of one vertex `v` inside a sweep. -/
def evalVertex (g : UGraph) (w? : Option (Nat → ℚ)) (kw : Nat → ℚ)
    (m th : ℚ) (st : SweepSt) (v : Nat) : Res SweepSt :=
  match dCompute w? (inCurOf st g v) (selfLoop g v) with
  | .error e => .error e
  | .ok d =>
    match bestCand g v st.c2v (s2Of st kw v) d w? kw m (candsOf st g v)
        (0, st.part.getD v 0) with
    | .error e => .error e
    | .ok (inc, newcom) =>
      if inc > th then moveStep st v (st.part.getD v 0) newcom else .ok st

/-- One full sweep over all vertices in ascending id order
(`for v in g.vertices():`), with the `changed` flag freshly reset. -/
def sweep (g : UGraph) (w? : Option (Nat → ℚ)) (kw : Nat → ℚ)
    (m th : ℚ) (st : SweepSt) : Res SweepSt :=
  foldM (evalVertex g w? kw m th) (⟨st.part, st.c2v, false⟩ : SweepSt) (List.range g.n)

/-- The `while changed:` loop of lines 470-520, with explicit fuel;
`none` models a run that has neither returned nor raised yet. -/
def sweepLoop (g : UGraph) (w? : Option (Nat → ℚ)) (kw : Nat → ℚ)
    (m th : ℚ) : Nat → SweepSt → Option (Res SweepSt)
  | 0, _ => none
  | fuel + 1, st =>
    match sweep g w? kw m th st with
    | .error e => some (.error e)
    | .ok st' =>
      if st'.changed then sweepLoop g w? kw m th fuel st' else some (.ok st')

/-- `louvain_step(g, partition, threshold, weight, m, kw, verbose)`
(lines 445-522): copy the partition, build the reverse index, compute
the degree map and `m` if they were not supplied (a float is falsy when
it is `0.0`), and run sweeps until a full sweep makes no move. -/
def louvain_step (g : UGraph) (partition : List Nat) (th : ℚ)
    (w? : Option (Nat → ℚ)) (m? : Option ℚ) (kw? : Option (Nat → ℚ))
    (fuel : Nat) : Option (Res (List Nat)) :=
  match sweepLoop g w? (optKw g w? kw?) (effM g (optKw g w? kw?) m?) th fuel
      ⟨partition, reverse_dict partition g.n, true⟩ with
  | none => none
  | some (.error e) => some (.error e)
  | some (.ok st) => some (.ok st.part)

/-- Modelled from the spec: `condensation_graph` (imported by the module
from the blockmodel component, not part of the analysed source).  Per
§4.5 of the spec it returns the coarse graph whose vertices are the
distinct community ids of the partition relabeled to a dense id space
(here: order of first occurrence), with one edge per community pair
carrying the summed crossing weight, intra-community weight accumulating
on a self-loop; the second return value is the community label of each
coarse vertex, and the weight map of the coarse graph is always a real
(non-`None`) property map. -/
def condensation_graph (g : UGraph) (part : List Nat)
    (w? : Option (Nat → ℚ)) : UGraph × List Nat × (Nat → ℚ) :=
  let comms := ((List.range g.n).map fun v => part.getD v 0).dedup
  let lbl := fun v => comms.indexOf (part.getD v 0)
  let cross := fun (i j : Nat) =>
    (g.edges.enum.map fun ie =>
      if (lbl ie.2.1 = i ∧ lbl ie.2.2 = j) ∨ (lbl ie.2.1 = j ∧ lbl ie.2.2 = i ∧ i ≠ j)
      then wval w? ie.1 else 0).sum
  let pairs := (List.range comms.length).flatMap fun i =>
    (List.range comms.length).filterMap fun j =>
      if i ≤ j ∧ g.edges.any (fun e => (lbl e.1 = i ∧ lbl e.2 = j) ∨ (lbl e.1 = j ∧ lbl e.2 = i))
      then some (i, j) else none
  let cedges := pairs
  let cw := fun idx => cross (cedges.getD idx (0, 0)).1 (cedges.getD idx (0, 0)).2
  (⟨comms.length, cedges, false⟩, comms, cw)

/-- The value returned by `louvain`: the zero-edge short-circuit returns
a single partition property map (lines 403-416), while the general path
returns the list `dendo` of partitions (line 443). -/
inductive LouvainOut where
  | single : List Nat → LouvainOut
  | dendro : List (List Nat) → LouvainOut
deriving DecidableEq, Repr

/-- Lines 418-428: the working graph, the level-0 partition and the
effective weight map — obtained from `condensation_graph` when a seed
partition was supplied (the `weight` name is rebound to the coarse
weight map, which is a real property map), and from a plain copy of `g`
with the identity partition (`g.vertex_index.copy('int')`) otherwise. -/
def workOf (g : UGraph) (w? : Option (Nat → ℚ)) (p? : Option (List Nat)) :
    UGraph × List Nat × Option (Nat → ℚ) :=
  match p? with
  | some p =>
    ((condensation_graph g p w?).1, (condensation_graph g p w?).2.1,
      some (condensation_graph g p w?).2.2)
  | none => (g, List.range g.n, w?)

/-- `louvain(g, weight, partition, threshold, verbose)` (lines 341-443).
The `verbose` flag only prints and is dropped.  `fuel` bounds the
`while` loop of `louvain_step` as explained above. -/
def louvain (g : UGraph) (w? : Option (Nat → ℚ)) (p? : Option (List Nat))
    (th : ℚ) (fuel : Nat) : Option (Res LouvainOut) :=
  if g.directed then some (.error .invalidKind)
  else if g.edges = [] then
    match p? with
    | some p => some (.ok (.single p))
    | none => some (.ok (.single (List.range g.n)))
  else
    match louvain_step (workOf g w? p?).1 (workOf g w? p?).2.1 th
        (workOf g w? p?).2.2
        (some (sumKw (workOf g w? p?).1 (kwOf (workOf g w? p?).1 (workOf g w? p?).2.2)))
        (some (kwOf (workOf g w? p?).1 (workOf g w? p?).2.2)) fuel with
    | none => none
    | some (.error e) => some (.error e)
    | some (.ok newPartition) =>
      some (.ok (.dendro [(workOf g w? p?).2.1, newPartition]))

/-! ## Concrete instances used by the claims -/

/-- The two-vertex graph with the single edge `{0,1}` of weight 1. -/
def gEdge : UGraph := ⟨2, [(0, 1)], false⟩

/-- The path graph `0 - 1 - 2` (three vertices, two unit edges). -/
def gPath3 : UGraph := ⟨3, [(0, 1), (1, 2)], false⟩

/-- The star with centre `0` and leaves `1, 2, 3`. -/
def gStar4 : UGraph := ⟨4, [(0, 1), (0, 2), (0, 3)], false⟩

/-- From the spec's words (§4.3): the sum of the edge weights from `x`
to the members of a community, excluding any self-loop of `x`; with the
weight map absent every edge weighs 1. -/
def specEdgeW (g : UGraph) (w? : Option (Nat → ℚ)) (x : Nat)
    (mem : List Nat) : ℚ :=
  (((incident g x).filter fun it => it.2 ∈ mem ∧ it.2 ≠ x).map
    fun it => wval w? it.1).sum

/-- Well-formedness of a graph: every edge endpoint is a vertex. -/
def WFg (g : UGraph) : Prop :=
  ∀ e ∈ g.edges, e.1 < g.n ∧ e.2 < g.n

/-- The consistency invariant of the local search state: the working
partition is total over the vertices, community ids stay below `n`
(true throughout `louvain`'s unseeded path, whose initial ids are the
vertex ids and whose moves only reuse existing neighbouring ids), and
the reverse index `c2v` holds exactly the members of each community,
without duplicates (spec §3, CommunityMembership). -/
def InvSt (g : UGraph) (st : SweepSt) : Prop :=
  st.part.length = g.n ∧
  (∀ v, v < g.n → st.part.getD v 0 < g.n) ∧
  ∀ c, c < g.n →
    (st.c2v c).Nodup ∧
    (∀ u ∈ st.c2v c, u < g.n ∧ st.part.getD u 0 = c) ∧
    (∀ u, u < g.n → st.part.getD u 0 = c → u ∈ st.c2v c)

/-- Generic edge-list sum of the weights of the intra-community edges;
`intraW` instantiates it with the graph's indexed edge list. -/
def intraL (w? : Option (Nat → ℚ)) (p : List Nat) :
    List (Nat × (Nat × Nat)) → ℚ
  | [] => 0
  | ie :: t =>
    (if p.getD ie.2.1 0 = p.getD ie.2.2 0 then wval w? ie.1 else 0) +
      intraL w? p t

/-- Generic edge-list sum of the weights of the edges joining `x` to
the vertices of community `c` (self-loops of `x` excluded);
`dMass` instantiates it with the graph's indexed edge list. -/
def dPartL (w? : Option (Nat → ℚ)) (p : List Nat) (x c : Nat) :
    List (Nat × (Nat × Nat)) → ℚ
  | [] => 0
  | ie :: t =>
    (if ie.2.1 = x then
      (if ie.2.2 ≠ x ∧ c = p.getD ie.2.2 0 then wval w? ie.1 else 0)
     else if ie.2.2 = x then
      (if ie.2.1 ≠ x ∧ p.getD ie.2.1 0 = c then wval w? ie.1 else 0)
     else 0) + dPartL w? p x c t

/-- Total weight of the intra-community edges of the partition. -/
def intraW (g : UGraph) (w? : Option (Nat → ℚ)) (p : List Nat) : ℚ :=
  intraL w? p g.edges.enum

/-- Weight of the edges from `x` to the members of community `c`
(self-loops of `x` excluded), read off the partition. -/
def dMass (g : UGraph) (w? : Option (Nat → ℚ)) (p : List Nat)
    (x c : Nat) : ℚ :=
  dPartL w? p x c g.edges.enum

/-- Degree mass of community `c`: the sum of the weighted degrees of
its members. -/
def Smass (g : UGraph) (kw : Nat → ℚ) (p : List Nat) (c : Nat) : ℚ :=
  ∑ v ∈ Finset.range g.n, (if p.getD v 0 = c then kw v else 0)

/-- Modelled from the spec (glossary and the `modularity` docstring,
whose scorer lives in the native extension outside the analysed
source): Newman's modularity
`Q = Σ_c (e_cc − (Σ_r e_rc)²)` of a partition, in the weighted form
`Q = Σ_c (W_in(c)/W − (S_c/2W)²)` with `m = 2W` the sum of all
weighted degrees: `Q = 2·intra/m − Σ_c S_c²/m²`. -/
def Qmod (g : UGraph) (w? : Option (Nat → ℚ)) (p : List Nat) : ℚ :=
  2 * intraW g w? p / sumKw g (kwOf g w?) -
    (∑ c ∈ Finset.range g.n, (Smass g (kwOf g w?) p c) ^ 2) /
      (sumKw g (kwOf g w?)) ^ 2

/-- The observable result of one full sweep: the working partition
(or the exception), the sweep state's reverse index being internal. -/
def sweepPart (g : UGraph) (w? : Option (Nat → ℚ)) (kw : Nat → ℚ)
    (m th : ℚ) (st : SweepSt) : Res (List Nat) :=
  match sweep g w? kw m th st with
  | .ok st1 => .ok st1.part
  | .error e => .error e

/-- The caller-visible store of partition property maps, for the frame
claim: a property map's address is its allocation index, and the only
write the algorithm ever performs on a property map is
`new_partition[v] = newcom` (line 518), which goes through the working
pointer allocated by `g.copy_property(partition)` (line 452).  The
graph, the weight map and the neighbour cache are only read. -/
def SyncSt (heap : List (List Nat))
    (hs : List (List Nat) × (Nat → List Nat) × Bool) (st : SweepSt) : Prop :=
  hs.1 = heap ++ [st.part] ∧ hs.2.1 = st.c2v ∧ hs.2.2 = st.changed

/-- Store-level version of `evalVertex`: read the working partition
through the pointer `wp`, evaluate the vertex, write the (possibly
unchanged) partition back through `wp`. -/
def heapSweepStep (g : UGraph) (w? : Option (Nat → ℚ)) (kw : Nat → ℚ)
    (m th : ℚ) (wp : Nat)
    (hs : List (List Nat) × (Nat → List Nat) × Bool) (v : Nat) :
    Res (List (List Nat) × (Nat → List Nat) × Bool) :=
  match evalVertex g w? kw m th ⟨hs.1.getD wp [], hs.2.1, hs.2.2⟩ v with
  | .error e => .error e
  | .ok st2 => .ok (hs.1.set wp st2.part, st2.c2v, st2.changed)

/-- Store-level version of `sweep`. -/
def heapSweep (g : UGraph) (w? : Option (Nat → ℚ)) (kw : Nat → ℚ)
    (m th : ℚ) (wp : Nat)
    (hs : List (List Nat) × (Nat → List Nat) × Bool) :
    Res (List (List Nat) × (Nat → List Nat) × Bool) :=
  foldM (heapSweepStep g w? kw m th wp) (hs.1, hs.2.1, false) (List.range g.n)

/-- Store-level version of `sweepLoop`. -/
def heapLoop (g : UGraph) (w? : Option (Nat → ℚ)) (kw : Nat → ℚ)
    (m th : ℚ) (wp : Nat) :
    Nat → List (List Nat) × (Nat → List Nat) × Bool →
    Option (Res (List (List Nat) × (Nat → List Nat) × Bool))
  | 0, _ => none
  | fuel + 1, hs =>
    match heapSweep g w? kw m th wp hs with
    | .error e => some (.error e)
    | .ok hs1 =>
      if hs1.2.2 then heapLoop g w? kw m th wp fuel hs1 else some (.ok hs1)

/-- Store-level version of `louvain_step`: the caller passes the store
and the address `ip` of its partition property map;
`g.copy_property(partition)` (line 452) allocates a fresh cell holding
a copy, and the local search runs through that fresh pointer.  The
returned address is the fresh cell's. -/
def louvain_stepH (g : UGraph) (heap : List (List Nat)) (ip : Nat)
    (th : ℚ) (w? : Option (Nat → ℚ)) (m? : Option ℚ)
    (kw? : Option (Nat → ℚ)) (fuel : Nat) :
    Option (Res (List (List Nat) × Nat)) :=
  match heapLoop g w? (optKw g w? kw?) (effM g (optKw g w? kw?) m?) th
      heap.length fuel
      (heap ++ [heap.getD ip []], reverse_dict (heap.getD ip []) g.n, true) with
  | none => none
  | some (.error e) => some (.error e)
  | some (.ok hs) => some (.ok (hs.1, heap.length))

/-! ## Generic facts about `foldM` -/

/-- An invariant that every successful step preserves is preserved by a
successful `foldM`. -/
theorem foldM_preserve {σ α : Type} (f : σ → α → Res σ) (P : σ → Prop)
    (l : List α) (hstep : ∀ s a s', a ∈ l → P s → f s a = .ok s' → P s') :
    ∀ s s', P s → foldM f s l = .ok s' → P s' := by
  induction l with
  | nil => intro s s' hP h; cases h; exact hP
  | cons a t ih =>
    intro s s' hP h
    unfold foldM at h
    cases hfa : f s a with
    | error e => rw [hfa] at h; cases h
    | ok s1 =>
      rw [hfa] at h
      exact ih (fun s a s' ha => hstep s a s' (List.mem_cons_of_mem _ ha))
        s1 s' (hstep s a s1 (List.mem_cons_self _ _) hP hfa) h

/-- If no step of a `foldM` can raise the exception `bad`, the fold
cannot raise it either. -/
theorem foldM_ne_error {σ α : Type} (f : σ → α → Res σ) (bad : PyErr)
    (l : List α) (hstep : ∀ s a, a ∈ l → f s a ≠ .error bad) :
    ∀ s, foldM f s l ≠ .error bad := by
  induction l with
  | nil => intro s h; cases h
  | cons a t ih =>
    intro s h
    unfold foldM at h
    cases hfa : f s a with
    | error e =>
      rw [hfa] at h
      cases h
      exact hstep s a (List.mem_cons_self _ _) hfa
    | ok s1 =>
      rw [hfa] at h
      exact ih (fun s a ha => hstep s a (List.mem_cons_of_mem _ ha)) s1 h

/-! ## The working partition keeps its length -/

theorem sum_map_one {α : Type} (l : List α) :
    (l.map fun _ => (1 : ℚ)).sum = l.length := by
  induction l with
  | nil => simp
  | cons a t ih => simp [ih]; ring

/-! ## C1: the value computed by `deltas` -/

theorem filter_mem_of_not_mem {g : UGraph} {x : Nat} {mem : List Nat}
    (hx : x ∉ mem) :
    ((incident g x).filter fun it => it.2 ∈ mem ∧ it.2 ≠ x) =
      ((incident g x).filter fun it => it.2 ∈ mem) := by
  apply List.filter_congr
  intro it _
  by_cases hm : it.2 ∈ mem
  · have hne : it.2 ≠ x := fun he => hx (he ▸ hm)
    simp [hm, hne]
  · simp [hm]

/-- With no weight map, the count of line 576 is the spec's `d_n`. -/
theorem deltaRaw_none_eq_spec {g : UGraph} {x : Nat} {c2v : Nat → List Nat}
    {nc : Nat} (hx : x ∉ c2v nc) :
    deltaRaw g x c2v nc none = .ok (specEdgeW g none x (c2v nc)) := by
  unfold deltaRaw specEdgeW
  rw [filter_mem_of_not_mem hx]
  have : ∀ l : List (Nat × Nat), (l.map fun it => wval none it.1).sum = (l.length : ℚ) := by
    intro l
    simp only [wval]
    exact sum_map_one l
  rw [this]

/-- Shared with the C4 development: the exact value returned by
`deltas` on the unweighted path. -/
theorem deltas_none_eq {g : UGraph} {x : Nat} {c2v : Nat → List Nat}
    {nc : Nat} {s2 d : ℚ} {kw : Nat → ℚ} {m : ℚ}
    (hx : x ∉ c2v nc) (hm : m ≠ 0) :
    deltas g x c2v nc s2 d none (some kw) (some m) =
      .ok (2 * ((specEdgeW g none x (c2v nc) - d) - (kw x / m) *
        (((c2v nc).map kw).sum - s2 + kw x)) / m) := by
  unfold deltas
  rw [deltaRaw_none_eq_spec hx]
  have heff : effM g (optKw g none (some kw)) (some m) = m := by
    unfold effM; simp [hm]
  rw [heff]
  simp [optKw, hm]

/-- Claim C1: for an undirected graph with at least one edge, a vertex
`x` in community `cur` and a candidate community `n`, the gain returned
by `deltas` (the first component of its result tuple) equals
`2 * ((d_n - d_cur) - (degree(x)/m) * (s_n - s2 + degree(x))) / m`,
where `d_n` is the weight of the edges from `x` to the members of `n`
excluding any self-loop and `s_n` the degree mass of `n`.  This holds
on the path the claim's quantities can actually reach: when the weight
argument is absent (every edge then weighing 1).  When a weight map is
supplied, the weighted branch of `deltas` (line 574) subscripts the set
`c2v[new_community]` with `[0]` and raises `TypeError` instead of
returning the gain, as the second conjunct shows on a concrete call,
so the claim's universally quantified statement is broken by that
slip — the claim itself (and the parallel unweighted branch, and the
function's docstring) being the evident intent. -/
theorem claim1_deltas_formula :
    (∀ (g : UGraph) (x : Nat) (c2v : Nat → List Nat) (nc : Nat)
      (s2 d : ℚ) (kw : Nat → ℚ) (m : ℚ), x ∉ c2v nc → m ≠ 0 →
      deltas g x c2v nc s2 d none (some kw) (some m) =
        .ok (2 * ((specEdgeW g none x (c2v nc) - d) - (kw x / m) *
          (((c2v nc).map kw).sum - s2 + kw x)) / m)) ∧
    deltas gEdge 0 (reverse_dict [0, 1] 2) 1 0 0 (some fun _ => 1)
      (some (kwOf gEdge none)) (some 2) = .error .setSub := by
  constructor
  · intro g x c2v nc s2 d kw m hx hm
    exact deltas_none_eq hx hm
  · with_unfolding_all decide

/-- Witness for C1: the unweighted conjunct applied to the single-edge
graph, vertex `0` moving into the community of vertex `1`. -/
theorem claim1_witness :
    (0 ∉ reverse_dict [0, 1] 2 1) ∧ ((2 : ℚ) ≠ 0) ∧
    deltas gEdge 0 (reverse_dict [0, 1] 2) 1 0 0 none
      (some (kwOf gEdge none)) (some 2) =
      .ok (2 * ((specEdgeW gEdge none 0 (reverse_dict [0, 1] 2 1) - 0) -
        (kwOf gEdge none 0 / 2) *
        (((reverse_dict [0, 1] 2 1).map (kwOf gEdge none)).sum - 0 +
          kwOf gEdge none 0)) / 2) :=
  ⟨by decide, by with_unfolding_all decide,
    claim1_deltas_formula.1 gEdge 0 (reverse_dict [0, 1] 2) 1 0 0
      (kwOf gEdge none) 2 (by decide) (by with_unfolding_all decide)⟩

/-! ## C2: the single-edge scenario -/

/-- Claim C2 (code evaluated at the failing input): on the graph with
vertices `{0, 1}` and the single unit edge, the gain `deltas` computes
for merging the two singleton communities is `0` — not strictly
positive — and `louvain` run with threshold `0` (which satisfies
"threshold ≤ the computed ΔQ") converges with `0` and `1` still in
distinct singleton communities; the true Newman modularity gain of the
merge is `1/2`, which the formula misses by its extra
`2*(degree(x)/m)^2` term. -/
theorem claim2_single_edge_eval :
    deltas gEdge 0 (reverse_dict [0, 1] 2) 1 0 0 none
      (some (kwOf gEdge none)) (some 2) = .ok 0 ∧
    louvain gEdge none none 0 5 =
      some (.ok (.dendro [[0, 1], [0, 1]])) ∧
    louvain gEdge none none (1 / 100000) 5 =
      some (.ok (.dendro [[0, 1], [0, 1]])) := by
  refine ⟨by with_unfolding_all decide, by with_unfolding_all decide,
    by with_unfolding_all decide⟩

/-! ## C3: absent weight versus explicit all-ones weight -/

/-- Claim C3 (code evaluated at the failing input): on the single-edge
graph, `louvain` with the weight argument absent returns the singleton
dendrogram, while `louvain` with an explicit weight map assigning 1 to
every edge raises `TypeError` (the `c2v[new_community][0]` subscript of
line 574), so an absent weight is not equivalent to a uniform weight-1
map. -/
theorem claim3_default_weight_eval :
    louvain gEdge none none (1 / 100000) 5 =
      some (.ok (.dendro [[0, 1], [0, 1]])) ∧
    louvain gEdge (some fun _ => 1) none (1 / 100000) 5 =
      some (.error .setSub) := by
  refine ⟨by with_unfolding_all decide, by with_unfolding_all decide⟩

/-! ## C5: the zero-edge short-circuit -/

/-- Claim C5: on a graph with no edges, `louvain` performs no
optimisation: it returns the supplied seed partition unchanged when one
was given, and the identity (singleton) partition otherwise. -/
theorem claim5_zero_edges (g : UGraph) (w? : Option (Nat → ℚ))
    (p? : Option (List Nat)) (th : ℚ) (fuel : Nat)
    (hdir : g.directed = false) (hE : g.edges = []) :
    louvain g w? p? th fuel =
      some (.ok (.single (p?.getD (List.range g.n)))) := by
  unfold louvain
  rw [hdir, hE]
  cases p? <;> simp

/-- Witness for C5: a three-vertex edgeless graph with a seed
partition, and the same graph without one. -/
theorem claim5_witness :
    ((⟨3, [], false⟩ : UGraph).directed = false ∧
      (⟨3, [], false⟩ : UGraph).edges = [] ∧
      louvain ⟨3, [], false⟩ none (some [7, 7, 7]) (1 / 100000) 3 =
        some (.ok (.single [7, 7, 7]))) ∧
    louvain ⟨3, [], false⟩ none none (1 / 100000) 3 =
      some (.ok (.single [0, 1, 2])) :=
  ⟨⟨rfl, rfl,
    claim5_zero_edges ⟨3, [], false⟩ none (some [7, 7, 7]) (1 / 100000) 3 rfl rfl⟩,
    claim5_zero_edges ⟨3, [], false⟩ none none (1 / 100000) 3 rfl rfl⟩

/-! ## C6: directed graphs are rejected first -/

/-- Claim C6: for every directed input graph, `louvain` raises the
invalid-graph-kind error as its very first action — the check is the
first statement of the function, so no computation or mutation precedes
it, whatever the other arguments are. -/
theorem claim6_directed_rejected (g : UGraph) (w? : Option (Nat → ℚ))
    (p? : Option (List Nat)) (th : ℚ) (fuel : Nat)
    (hdir : g.directed = true) :
    louvain g w? p? th fuel = some (.error .invalidKind) := by
  unfold louvain
  rw [hdir]
  simp

/-- Witness for C6: a directed two-vertex graph with one edge. -/
theorem claim6_witness :
    (⟨2, [(0, 1)], true⟩ : UGraph).directed = true ∧
    louvain ⟨2, [(0, 1)], true⟩ none none (1 / 100000) 3 =
      some (.error .invalidKind) :=
  ⟨rfl, claim6_directed_rejected ⟨2, [(0, 1)], true⟩ none none (1 / 100000) 3 rfl⟩

/-! ## C7: the sweep loop on the three-vertex path -/

/-- Claim C7 (code evaluated at the failing input): on the path
`0 - 1 - 2` with no weight map, the first sweep moves vertex `0` into
the community of vertex `1`, and the evaluation of vertex `1` then
finds an edge inside its own community and subscripts the absent
(`None`) weight map at line 485, raising `TypeError` — `louvain_step`
never returns, for any amount of fuel, instead of converging to a
quiescent partition. -/
theorem claim7_path3_never_returns (fuel : Nat) :
    louvain gPath3 none none (1 / 100000) (fuel + 1) =
      some (.error .noneSub) := by with_unfolding_all rfl

/-! ## C9: the shape of the value returned by `louvain` -/

theorem dCompute_error_eq {w? inCur loop? e}
    (h : dCompute w? inCur loop? = .error e) : e = .noneSub := by
  unfold dCompute at h
  cases w? with
  | some w => cases loop? <;> simp at h
  | none =>
    cases inCur with
    | nil => cases loop? with
      | some ie => cases h; rfl
      | none => cases h
    | cons a t => cases h; rfl

theorem moveStep_error_eq {st v current newcom e}
    (h : moveStep st v current newcom = .error e) : e = .keyErr := by
  unfold moveStep at h
  split at h
  · cases h
  · cases h; rfl

theorem deltaRaw_some_error {g x c2v nc wf}
    (hinc : incident g x ≠ []) :
    deltaRaw g x c2v nc (some wf) = .error .setSub := by
  unfold deltaRaw
  simp [hinc]

theorem kwOf_none_nonneg (g : UGraph) (v : Nat) : 0 ≤ kwOf g none v := by
  unfold kwOf
  apply List.sum_nonneg
  intro q hq
  rcases List.mem_map.mp hq with ⟨it, _, rfl⟩
  have : (0 : ℚ) ≤ (if it.2 = v then 2 else 1) := by split <;> norm_num
  simpa [wval] using this

theorem kwOf_none_pos {g : UGraph} {x : Nat}
    (hinc : incident g x ≠ []) : 0 < kwOf g none x := by
  unfold kwOf
  cases hi : incident g x with
  | nil => exact absurd hi hinc
  | cons a t =>
    simp only [List.map_cons, List.sum_cons]
    have h1 : (1 : ℚ) ≤ (if a.2 = x then 2 else 1) * wval none a.1 := by
      simp only [wval]; split <;> norm_num
    have h2 : (0 : ℚ) ≤ (t.map fun it => (if it.2 = x then 2 else 1) * wval none it.1).sum := by
      apply List.sum_nonneg
      intro q hq
      rcases List.mem_map.mp hq with ⟨it, _, rfl⟩
      have : (0 : ℚ) ≤ (if it.2 = x then 2 else 1) := by split <;> norm_num
      simpa [wval] using this
    linarith

theorem sumKw_none_pos {g : UGraph} {x : Nat} (hx : x < g.n)
    (hinc : incident g x ≠ []) : 0 < sumKw g (kwOf g none) := by
  unfold sumKw
  have hmem : kwOf g none x ∈ (List.range g.n).map (kwOf g none) :=
    List.mem_map.mpr ⟨x, List.mem_range.mpr hx, rfl⟩
  have hle : kwOf g none x ≤ ((List.range g.n).map (kwOf g none)).sum :=
    List.single_le_sum (fun q hq => by
      rcases List.mem_map.mp hq with ⟨v, _, rfl⟩
      exact kwOf_none_nonneg g v) _ hmem
  exact lt_of_lt_of_le (kwOf_none_pos hinc) hle

/-- Any `deltas` call whose vertex has at least one incident edge and
whose degree map is the one `louvain` computes cannot raise
`ZeroDivisionError`: with a weight map the set subscript of line 574
raises `TypeError` first, and without one the effective `m` is a sum of
degrees that is at least the (positive) degree of `x`. -/
theorem deltas_ne_zeroDiv {g : UGraph} {x : Nat} {c2v : Nat → List Nat}
    {nc : Nat} {s2 d : ℚ} {w? : Option (Nat → ℚ)} {m? : Option ℚ}
    (hx : x < g.n) (hinc : incident g x ≠ []) :
    deltas g x c2v nc s2 d w? (some (kwOf g w?)) m? ≠ .error .zeroDiv := by
  cases w? with
  | some wf =>
    unfold deltas
    rw [deltaRaw_some_error hinc]
    intro h
    injection h with h2
    cases h2
  | none =>
    have hm : effM g (kwOf g none) m? ≠ 0 := by
      have hpos := sumKw_none_pos hx hinc
      unfold effM
      cases m? with
      | some mv =>
        dsimp only
        split
        · exact ne_of_gt hpos
        · assumption
      | none => exact ne_of_gt hpos
    unfold deltas deltaRaw
    dsimp only
    have hopt : optKw g none (some (kwOf g none)) = kwOf g none := rfl
    rw [hopt, if_neg hm]
    intro h
    cases h

theorem candsOf_incident_ne_nil {st : SweepSt} {g : UGraph} {v nc : Nat}
    (h : nc ∈ candsOf st g v) : incident g v ≠ [] := by
  unfold candsOf at h
  have h1 := List.mem_of_mem_filter h
  rcases List.mem_map.mp (List.mem_dedup.mp h1) with ⟨t, ht, _⟩
  unfold neighSet at ht
  have h2 := List.mem_of_mem_filter ht
  rcases List.mem_map.mp (List.mem_dedup.mp h2) with ⟨it, hit, _⟩
  intro hnil
  rw [hnil] at hit
  cases hit

theorem bestCand_ne_zeroDiv {g : UGraph} {x : Nat} {c2v : Nat → List Nat}
    {s2 d : ℚ} {w? : Option (Nat → ℚ)} {kw : Nat → ℚ} {m : ℚ}
    {cands : List Nat}
    (hnc : ∀ nc ∈ cands,
      deltas g x c2v nc s2 d w? (some kw) (some m) ≠ .error .zeroDiv)
    (init : ℚ × Nat) :
    bestCand g x c2v s2 d w? kw m cands init ≠ .error .zeroDiv := by
  unfold bestCand
  apply foldM_ne_error
  intro s nc hmem hcontra
  cases hdel : deltas g x c2v nc s2 d w? (some kw) (some m) with
  | error e' =>
    rw [hdel] at hcontra
    injection hcontra with h2
    rw [h2] at hdel
    exact hnc nc hmem hdel
  | ok dq =>
    rw [hdel] at hcontra
    cases hcontra

theorem evalVertex_ne_zeroDiv {g : UGraph} {w? : Option (Nat → ℚ)}
    {m th : ℚ} {st : SweepSt} {v : Nat} (hx : v < g.n) :
    evalVertex g w? (kwOf g w?) m th st v ≠ .error .zeroDiv := by
  unfold evalVertex
  cases hd : dCompute w? (inCurOf st g v) (selfLoop g v) with
  | error e =>
    dsimp only
    intro h
    injection h with h2
    rw [dCompute_error_eq hd] at h2
    cases h2
  | ok d =>
    dsimp only
    cases hb : bestCand g v st.c2v (s2Of st (kwOf g w?) v) d w? (kwOf g w?) m
        (candsOf st g v) (0, st.part.getD v 0) with
    | error e =>
      dsimp only
      intro h
      injection h with h2
      rw [h2] at hb
      refine bestCand_ne_zeroDiv ?_ _ hb
      intro nc hnc
      exact deltas_ne_zeroDiv hx (candsOf_incident_ne_nil hnc)
    | ok p =>
      obtain ⟨inc, newcom⟩ := p
      dsimp only
      split
      · intro h
        cases moveStep_error_eq h
      · intro h
        cases h

theorem sweep_ne_zeroDiv {g : UGraph} {w? : Option (Nat → ℚ)}
    {m th : ℚ} {st : SweepSt} :
    sweep g w? (kwOf g w?) m th st ≠ .error .zeroDiv := by
  unfold sweep
  apply foldM_ne_error
  intro s v hv
  exact evalVertex_ne_zeroDiv (List.mem_range.mp hv)

theorem sweepLoop_ne_zeroDiv {g : UGraph} {w? : Option (Nat → ℚ)}
    {m th : ℚ} {fuel : Nat} {st : SweepSt} :
    sweepLoop g w? (kwOf g w?) m th fuel st ≠ some (.error .zeroDiv) := by
  induction fuel generalizing st with
  | zero => intro h; cases h
  | succ k ih =>
    unfold sweepLoop
    cases hs : sweep g w? (kwOf g w?) m th st with
    | error e =>
      intro h
      cases h
      exact sweep_ne_zeroDiv hs
    | ok st' =>
      dsimp only
      split
      · exact ih
      · intro h; cases h

theorem louvain_step_ne_zeroDiv {g : UGraph} {partition : List Nat}
    {th : ℚ} {w? : Option (Nat → ℚ)} {m? : Option ℚ} {fuel : Nat} :
    louvain_step g partition th w? m? (some (kwOf g w?)) fuel ≠
      some (.error .zeroDiv) := by
  unfold louvain_step
  have hkw : optKw g w? (some (kwOf g w?)) = kwOf g w? := rfl
  rw [hkw]
  cases hl : sweepLoop g w? (kwOf g w?) (effM g (kwOf g w?) m?) th fuel
      ⟨partition, reverse_dict partition g.n, true⟩ with
  | none => intro h; cases h
  | some r =>
    cases r with
    | error e =>
      intro h
      cases h
      exact sweepLoop_ne_zeroDiv hl
    | ok st => intro h; cases h

/-- Claim C8: in every execution reachable through `louvain`'s public
entry point — any graph, any optional weight map, any optional seed
partition, any threshold, any amount of fuel — the run never ends in
the `ZeroDivisionError` of line 585: the division of `deltas` is never
by zero.  (On the weight-absent path the effective `m` is the positive
sum of unweighted degrees; on every weighted path, including the
seeded path whose `weight` is rebound to the condensation graph's map,
the line-574 `TypeError` precedes the division; the zero-edge
short-circuit and the directed-input rejection never reach `deltas`.) -/
theorem claim8_no_zero_division (g : UGraph) (w? : Option (Nat → ℚ))
    (p? : Option (List Nat)) (th : ℚ) (fuel : Nat) :
    louvain g w? p? th fuel ≠ some (.error .zeroDiv) := by
  unfold louvain
  by_cases hdir : g.directed
  · simp only [hdir, if_true]
    intro h; cases h
  · simp only [hdir, if_false]
    by_cases hE : g.edges = []
    · simp only [hE, if_pos rfl]
      cases p? <;> (intro h; cases h)
    · simp only [hE, if_neg, if_false]
      cases hl : louvain_step (workOf g w? p?).1 (workOf g w? p?).2.1 th
          (workOf g w? p?).2.2
          (some (sumKw (workOf g w? p?).1 (kwOf (workOf g w? p?).1 (workOf g w? p?).2.2)))
          (some (kwOf (workOf g w? p?).1 (workOf g w? p?).2.2)) fuel with
      | none => intro h; cases h
      | some r =>
        cases r with
        | error e =>
          intro h
          cases h
          exact louvain_step_ne_zeroDiv hl
        | ok out => intro h; cases h

/-! ## C4: moving one vertex — effect on the modularity ingredients -/

theorem getD_set_ne {p : List Nat} {x u : Nat} (h : u ≠ x) (a : Nat) :
    (p.set x a).getD u 0 = p.getD u 0 := by
  simp [List.getD_eq_getElem?_getD, List.getElem?_set_ne (Ne.symm h)]

theorem getD_set_self {p : List Nat} {x : Nat} (h : x < p.length) (a : Nat) :
    (p.set x a).getD x 0 = a := by
  simp [List.getD_eq_getElem?_getD, List.getElem?_set_self h]

theorem intraL_set (w? : Option (Nat → ℚ)) (p : List Nat) (x nc : Nat)
    (hx : x < p.length) :
    ∀ l : List (Nat × (Nat × Nat)),
      intraL w? (p.set x nc) l =
        intraL w? p l + dPartL w? p x nc l - dPartL w? p x (p.getD x 0) l := by
  intro l
  induction l with
  | nil => simp [intraL, dPartL]
  | cons ie t ih =>
    obtain ⟨i, u, v⟩ := ie
    simp only [intraL, dPartL]
    rw [ih]
    by_cases hu : u = x
    · by_cases hv : v = x
      · rw [if_pos hu, if_pos hu, hu, hv, getD_set_self hx]
        simp only [ne_eq, not_true_eq_false, false_and, if_false]
        split_ifs with h1
        · ring
        · exact absurd trivial h1
      · rw [if_pos hu, if_pos hu, hu, getD_set_self hx, getD_set_ne hv]
        simp only [ne_eq, hv, not_false_eq_true, true_and]
        split_ifs <;> ring
    · by_cases hv : v = x
      · rw [if_neg hu, if_pos hv, if_neg hu, if_pos hv, hv,
          getD_set_self hx, getD_set_ne hu]
        simp only [ne_eq, hu, not_false_eq_true, true_and]
        split_ifs <;> ring
      · rw [if_neg hu, if_neg hv, if_neg hu, if_neg hv,
          getD_set_ne hu, getD_set_ne hv]
        ring

theorem intraW_set (g : UGraph) (w? : Option (Nat → ℚ)) (p : List Nat)
    (x nc : Nat) (hx : x < p.length) :
    intraW g w? (p.set x nc) =
      intraW g w? p + dMass g w? p x nc - dMass g w? p x (p.getD x 0) :=
  intraL_set w? p x nc hx g.edges.enum

theorem Smass_set {g : UGraph} {kw : Nat → ℚ} {p : List Nat} {x nc : Nat}
    (hxn : x < g.n) (hxl : x < p.length) (c : Nat) :
    Smass g kw (p.set x nc) c =
      Smass g kw p c + ((if nc = c then kw x else 0) -
        (if p.getD x 0 = c then kw x else 0)) := by
  unfold Smass
  have hpt : ∀ v ∈ Finset.range g.n,
      (if (p.set x nc).getD v 0 = c then kw v else 0) =
        (if p.getD v 0 = c then kw v else 0) +
          (if v = x then ((if nc = c then kw x else 0) -
            (if p.getD x 0 = c then kw x else 0)) else 0) := by
    intro v _
    by_cases hvx : v = x
    · rw [hvx, getD_set_self hxl, if_pos rfl]
      ring
    · rw [getD_set_ne hvx, if_neg hvx]
      ring
  rw [Finset.sum_congr rfl hpt, Finset.sum_add_distrib,
    Finset.sum_ite_eq' (Finset.range g.n) x]
  rw [if_pos (Finset.mem_range.mpr hxn)]

theorem sumSq_set {g : UGraph} {kw : Nat → ℚ} {p : List Nat} {x nc : Nat}
    (hxn : x < g.n) (hxl : x < p.length)
    (hcurn : p.getD x 0 < g.n) (hncn : nc < g.n) (hne : nc ≠ p.getD x 0) :
    ∑ c ∈ Finset.range g.n, (Smass g kw (p.set x nc) c) ^ 2 =
      (∑ c ∈ Finset.range g.n, (Smass g kw p c) ^ 2) +
        2 * kw x * (Smass g kw p nc -
          (Smass g kw p (p.getD x 0) - kw x)) := by
  have key : ∀ c ∈ Finset.range g.n,
      (Smass g kw (p.set x nc) c) ^ 2 =
        (Smass g kw p c) ^ 2 +
          2 * Smass g kw p c * ((if nc = c then kw x else 0) -
            (if p.getD x 0 = c then kw x else 0)) +
          (((if nc = c then kw x else 0) -
            (if p.getD x 0 = c then kw x else 0))) ^ 2 := by
    intro c hc
    rw [Smass_set hxn hxl]
    ring
  rw [Finset.sum_congr rfl key, Finset.sum_add_distrib, Finset.sum_add_distrib]
  have hcross : ∀ c ∈ Finset.range g.n,
      2 * Smass g kw p c * ((if nc = c then kw x else 0) -
        (if p.getD x 0 = c then kw x else 0)) =
      (if nc = c then 2 * Smass g kw p c * kw x else 0) -
        (if p.getD x 0 = c then 2 * Smass g kw p c * kw x else 0) := by
    intro c _
    split_ifs <;> ring
  have hsq : ∀ c ∈ Finset.range g.n,
      (((if nc = c then kw x else 0) -
        (if p.getD x 0 = c then kw x else 0))) ^ 2 =
      (if nc = c then kw x ^ 2 else 0) +
        (if p.getD x 0 = c then kw x ^ 2 else 0) := by
    intro c _
    by_cases h1 : nc = c
    · have h2 : ¬ p.getD x 0 = c := fun hh => hne (h1.trans hh.symm)
      rw [if_pos h1, if_neg h2, if_pos h1, if_neg h2]
      ring
    · by_cases h2 : p.getD x 0 = c
      · rw [if_neg h1, if_pos h2, if_neg h1, if_pos h2]
        ring
      · rw [if_neg h1, if_neg h2, if_neg h1, if_neg h2]
        ring
  rw [Finset.sum_congr rfl hcross, Finset.sum_congr rfl hsq,
    Finset.sum_add_distrib, Finset.sum_sub_distrib,
    Finset.sum_ite_eq (Finset.range g.n) nc,
    Finset.sum_ite_eq (Finset.range g.n) (p.getD x 0),
    Finset.sum_ite_eq (Finset.range g.n) nc,
    Finset.sum_ite_eq (Finset.range g.n) (p.getD x 0),
    if_pos (Finset.mem_range.mpr hncn), if_pos (Finset.mem_range.mpr hcurn),
    if_pos (Finset.mem_range.mpr hncn), if_pos (Finset.mem_range.mpr hcurn)]
  ring

theorem Qmod_set {g : UGraph} {w? : Option (Nat → ℚ)} {p : List Nat}
    {x nc : Nat} (hxn : x < g.n) (hxl : x < p.length)
    (hcurn : p.getD x 0 < g.n) (hncn : nc < g.n) (hne : nc ≠ p.getD x 0)
    (hm : sumKw g (kwOf g w?) ≠ 0) :
    Qmod g w? (p.set x nc) = Qmod g w? p +
      2 * (dMass g w? p x nc - dMass g w? p x (p.getD x 0)) /
        sumKw g (kwOf g w?) -
      2 * kwOf g w? x * (Smass g (kwOf g w?) p nc -
          (Smass g (kwOf g w?) p (p.getD x 0) - kwOf g w? x)) /
        (sumKw g (kwOf g w?)) ^ 2 := by
  unfold Qmod
  rw [intraW_set g w? p x nc hxl, sumSq_set hxn hxl hcurn hncn hne]
  field_simp
  ring

theorem listsum_eq_Smass {g : UGraph} {kw : Nat → ℚ} {p : List Nat}
    {mem : List Nat} {c : Nat} (hnd : mem.Nodup)
    (hmem : ∀ u, u ∈ mem ↔ (u < g.n ∧ p.getD u 0 = c)) :
    (mem.map kw).sum = Smass g kw p c := by
  have h1 : mem.toFinset = (Finset.range g.n).filter (fun u => p.getD u 0 = c) := by
    ext u
    simp only [List.mem_toFinset, Finset.mem_filter, Finset.mem_range]
    exact hmem u
  have h2 := List.sum_toFinset kw hnd
  rw [← h2, h1]
  unfold Smass
  rw [Finset.sum_filter]

theorem specL_eq_dPartL {w? : Option (Nat → ℚ)} {p : List Nat}
    {x c : Nat} {n : Nat} {mem : List Nat}
    (hmem : ∀ u, u ∈ mem ↔ (u < n ∧ p.getD u 0 = c)) :
    ∀ l : List (Nat × (Nat × Nat)),
      (∀ ie ∈ l, ie.2.1 < n ∧ ie.2.2 < n) →
      (((incidL x l).filter fun it => it.2 ∈ mem ∧ it.2 ≠ x).map
        fun it => wval w? it.1).sum = dPartL w? p x c l := by
  intro l
  induction l with
  | nil => intro _; simp [incidL, dPartL]
  | cons ie t ih =>
    intro hWF
    have hWFt : ∀ ie ∈ t, ie.2.1 < n ∧ ie.2.2 < n :=
      fun ie hie => hWF ie (List.mem_cons_of_mem _ hie)
    have hWFh := hWF ie (List.mem_cons_self _ _)
    obtain ⟨i, u, v⟩ := ie
    simp only [incidL, dPartL]
    rw [← ih hWFt]
    by_cases hu : u = x
    · rw [if_pos hu, if_pos hu]
      by_cases hvx : v = x
      · rw [List.filter_cons_of_neg (by simp [hvx])]
        simp only [hvx, ne_eq, not_true_eq_false, false_and, if_false]
        ring
      · simp only [ne_eq, hvx, not_false_eq_true, true_and]
        by_cases hc : c = p.getD v 0
        · have hvm : v ∈ mem := (hmem v).mpr ⟨hWFh.2, hc.symm⟩
          rw [List.filter_cons_of_pos (by simp [hvm, hvx]),
            List.map_cons, List.sum_cons, if_pos hc]
        · have hvm : v ∉ mem := fun hmm => hc (((hmem v).mp hmm).2).symm
          rw [List.filter_cons_of_neg (by simp [hvm]), if_neg hc]
          ring
    · rw [if_neg hu, if_neg hu]
      by_cases hvx : v = x
      · rw [if_pos hvx, if_pos hvx]
        simp only [ne_eq, hu, not_false_eq_true, true_and]
        by_cases hc : p.getD u 0 = c
        · have hum : u ∈ mem := (hmem u).mpr ⟨hWFh.1, hc⟩
          rw [List.filter_cons_of_pos (by simp [hum, hu]),
            List.map_cons, List.sum_cons, if_pos hc]
        · have hum : u ∉ mem := fun hmm => hc ((hmem u).mp hmm).2
          rw [List.filter_cons_of_neg (by simp [hum]), if_neg hc]
          ring
      · rw [if_neg hvx, if_neg hvx]
        ring

/-- Under the membership invariant, the spec's `d_n` (the weight of the
edges from `x` to the members of the community, self-loops excluded)
can be read off the partition. -/
theorem specEdgeW_eq_dMass {g : UGraph} {w? : Option (Nat → ℚ)}
    {p : List Nat} {x c : Nat} {mem : List Nat} (hWF : WFg g)
    (hmem : ∀ u, u ∈ mem ↔ (u < g.n ∧ p.getD u 0 = c)) :
    specEdgeW g w? x mem = dMass g w? p x c := by
  unfold specEdgeW dMass incident
  refine specL_eq_dPartL hmem g.edges.enum ?_
  intro ie hie
  exact hWF ie.2 (List.getElem?_mem (List.mem_enum_iff_getElem?.mp hie))

theorem dCompute_none_ok {inCur : List (Nat × Nat)}
    {loop? : Option (Nat × (Nat × Nat))} {d : ℚ}
    (h : dCompute none inCur loop? = .ok d) :
    inCur = [] ∧ loop? = none ∧ d = 0 := by
  unfold dCompute at h
  cases inCur with
  | nil =>
    cases loop? with
    | some ie => cases h
    | none =>
      injection h with h1
      exact ⟨rfl, rfl, h1.symm⟩
  | cons a t => cases h

theorem incidL_target_lt {x n : Nat} :
    ∀ l : List (Nat × (Nat × Nat)),
      (∀ ie ∈ l, ie.2.1 < n ∧ ie.2.2 < n) →
      ∀ it ∈ incidL x l, it.2 < n := by
  intro l
  induction l with
  | nil => intro _ it hit; cases hit
  | cons ie t ih =>
    intro hWF it hit
    have hWFt : ∀ ie ∈ t, ie.2.1 < n ∧ ie.2.2 < n :=
      fun ie hie => hWF ie (List.mem_cons_of_mem _ hie)
    have hWFh := hWF ie (List.mem_cons_self _ _)
    unfold incidL at hit
    split at hit
    · rcases List.mem_cons.mp hit with h1 | h1
      · rw [h1]; exact hWFh.2
      · exact ih hWFt it h1
    · split at hit
      · rcases List.mem_cons.mp hit with h1 | h1
        · rw [h1]; exact hWFh.1
        · exact ih hWFt it h1
      · exact ih hWFt it hit

theorem incident_target_lt {g : UGraph} (hWF : WFg g) {x : Nat} :
    ∀ it ∈ incident g x, it.2 < g.n := by
  unfold incident
  refine incidL_target_lt g.edges.enum ?_
  intro ie hie
  exact hWF ie.2 (List.getElem?_mem (List.mem_enum_iff_getElem?.mp hie))

theorem candsOf_ne_current {st : SweepSt} {g : UGraph} {v nc : Nat}
    (h : nc ∈ candsOf st g v) : nc ≠ st.part.getD v 0 := by
  unfold candsOf at h
  have := List.of_mem_filter h
  simpa using this

theorem candsOf_lt {st : SweepSt} {g : UGraph} {v nc : Nat} (hWF : WFg g)
    (hbound : ∀ u, u < g.n → st.part.getD u 0 < g.n)
    (h : nc ∈ candsOf st g v) : nc < g.n := by
  unfold candsOf at h
  have h1 := List.mem_of_mem_filter h
  rcases List.mem_map.mp (List.mem_dedup.mp h1) with ⟨t, ht, rfl⟩
  unfold neighSet at ht
  have h2 := List.mem_of_mem_filter ht
  rcases List.mem_map.mp (List.mem_dedup.mp h2) with ⟨it, hit, rfl⟩
  exact hbound it.2 (incident_target_lt hWF it hit)

/-- If line 485's comprehension found no edge from `v` into its own
community, then the partition-level weight of those edges is zero. -/
theorem dMass_cur_zero {g : UGraph} {w? : Option (Nat → ℚ)} {p : List Nat}
    {v cur : Nat} {mem : List Nat} (hWF : WFg g)
    (hmem : ∀ u, u ∈ mem ↔ (u < g.n ∧ p.getD u 0 = cur))
    (hnil : (incident g v).filter (fun it => it.2 ∈ mem) = []) :
    dMass g w? p v cur = 0 := by
  rw [← specEdgeW_eq_dMass hWF hmem]
  unfold specEdgeW
  have h2 : ((incident g v).filter fun it => it.2 ∈ mem ∧ it.2 ≠ v) = [] := by
    rw [List.filter_eq_nil_iff] at hnil ⊢
    intro a ha hcontra
    apply hnil a ha
    simp only [decide_eq_true_eq] at hcontra ⊢
    exact hcontra.1
  rw [h2]
  simp

/-- What a successful candidate scan (lines 500-512) guarantees: the
gain never decreases below the initial `(0.0,)`, the selected pair is
either the initial one or an actually computed gain on a candidate in
the list, and the selected gain dominates every computed gain. -/
theorem bestCand_spec {g : UGraph} {x : Nat} {c2v : Nat → List Nat}
    {s2 d : ℚ} {w? : Option (Nat → ℚ)} {kw : Nat → ℚ} {m : ℚ} :
    ∀ (cands : List Nat) (init res : ℚ × Nat), 0 ≤ init.1 →
      bestCand g x c2v s2 d w? kw m cands init = .ok res →
      (0 ≤ res.1 ∧ init.1 ≤ res.1 ∧
        (res = init ∨ (0 < res.1 ∧ res.2 ∈ cands ∧
          deltas g x c2v res.2 s2 d w? (some kw) (some m) = .ok res.1)) ∧
        ∀ nc ∈ cands, ∀ dq,
          deltas g x c2v nc s2 d w? (some kw) (some m) = .ok dq →
            dq ≤ res.1) := by
  intro cands
  induction cands with
  | nil =>
    intro init res h0 h
    unfold bestCand foldM at h
    injection h with h1
    rw [← h1]
    exact ⟨h0, le_refl _, Or.inl rfl, fun nc hnc => absurd hnc (List.not_mem_nil nc)⟩
  | cons c t ih =>
    intro init res h0 h
    unfold bestCand foldM at h
    cases hdel : deltas g x c2v c s2 d w? (some kw) (some m) with
    | error e => rw [hdel] at h; cases h
    | ok dqc =>
      rw [hdel] at h
      dsimp only at h
      set acc1 : ℚ × Nat := if dqc > init.1 then (dqc, c) else init with hacc
      have hacc0 : 0 ≤ acc1.1 := by
        rw [hacc]
        split
        · exact le_of_lt (lt_of_le_of_lt h0 (by assumption))
        · exact h0
      have hy := ih acc1 res hacc0 h
      obtain ⟨hr0, hrle, hrdisj, hrbest⟩ := hy
      have hinit_le : init.1 ≤ acc1.1 := by
        rw [hacc]
        split
        · exact le_of_lt (by assumption)
        · exact le_refl _
      refine ⟨hr0, le_trans hinit_le hrle, ?_, ?_⟩
      · rcases hrdisj with hres | hres
        · rw [hres, hacc]
          by_cases hgt : dqc > init.1
          · rw [if_pos hgt]
            right
            exact ⟨lt_of_le_of_lt h0 hgt, List.mem_cons_self _ _, hdel⟩
          · rw [if_neg hgt]
            left
            rfl
        · right
          exact ⟨hres.1, List.mem_cons_of_mem _ hres.2.1, hres.2.2⟩
      · intro nc hnc dq hdq
        rcases List.mem_cons.mp hnc with h1 | h1
        · rw [h1] at hdq
          rw [hdq] at hdel
          injection hdel with h2
          have hdqc_le : dqc ≤ acc1.1 := by
            rw [hacc]
            split
            · exact le_refl _
            · exact le_of_not_lt (by assumption)
          rw [h2]
          exact le_trans hdqc_le hrle
        · exact hrbest nc h1 dq hdq

/-- A move to a neighbouring community preserves the consistency
invariant, and updates the partition at the moved vertex only. -/
theorem moveStep_ok_Inv {g : UGraph} {st : SweepSt} {v newcom : Nat}
    {st' : SweepSt} (hInv : InvSt g st) (hv : v < g.n) (hnc : newcom < g.n)
    (hne : newcom ≠ st.part.getD v 0)
    (h : moveStep st v (st.part.getD v 0) newcom = .ok st') :
    InvSt g st' ∧ st'.part = st.part.set v newcom := by
  obtain ⟨hlen, hbound, hc2v⟩ := hInv
  have hcur : st.part.getD v 0 < g.n := hbound v hv
  have hvl : v < st.part.length := by rw [hlen]; exact hv
  have hvnotnc : v ∉ st.c2v newcom := fun hmm =>
    hne (((hc2v newcom hnc).2.1 v hmm).2).symm
  have hBnc : c2vAfterMove st.c2v v (st.part.getD v 0) newcom newcom =
      st.c2v newcom ++ [v] := by
    unfold c2vAfterMove
    rw [if_pos rfl, if_neg hne, if_neg hvnotnc]
  have hBcur : c2vAfterMove st.c2v v (st.part.getD v 0) newcom
      (st.part.getD v 0) = (st.c2v (st.part.getD v 0)).erase v := by
    unfold c2vAfterMove
    rw [if_neg (fun hh : st.part.getD v 0 = newcom => hne hh.symm), if_pos rfl]
  have hBother : ∀ c, c ≠ newcom → c ≠ st.part.getD v 0 →
      c2vAfterMove st.c2v v (st.part.getD v 0) newcom c = st.c2v c := by
    intro c h1 h2
    unfold c2vAfterMove
    rw [if_neg h1, if_neg h2]
  unfold moveStep at h
  split at h
  · cases h
    dsimp only
    refine ⟨⟨?_, ?_, ?_⟩, rfl⟩
    · rw [List.length_set]; exact hlen
    · intro u hu
      by_cases huv : u = v
      · rw [huv, getD_set_self hvl]; exact hnc
      · rw [getD_set_ne huv]; exact hbound u hu
    · intro c hc
      dsimp only
      by_cases hcnew : c = newcom
      · rw [hcnew, hBnc]
        refine ⟨?_, ?_, ?_⟩
        · rw [List.nodup_append]
          refine ⟨(hc2v newcom hnc).1, List.nodup_singleton v, ?_⟩
          intro a ha hav
          rw [List.mem_singleton] at hav
          rw [hav] at ha
          exact hvnotnc ha
        · intro u hu
          rcases List.mem_append.mp hu with h1 | h1
          · have h2 := (hc2v newcom hnc).2.1 u h1
            have huv : u ≠ v := fun he => hvnotnc (he ▸ h1)
            exact ⟨h2.1, by rw [getD_set_ne huv]; exact h2.2⟩
          · rw [List.mem_singleton] at h1
            rw [h1]
            exact ⟨hv, getD_set_self hvl newcom⟩
        · intro u hu hpu
          by_cases huv : u = v
          · rw [huv]
            exact List.mem_append.mpr (Or.inr (List.mem_singleton.mpr rfl))
          · rw [getD_set_ne huv] at hpu
            exact List.mem_append.mpr (Or.inl ((hc2v newcom hnc).2.2 u hu hpu))
      · by_cases hccur : c = st.part.getD v 0
        · rw [hccur, hBcur]
          have hnd := (hc2v (st.part.getD v 0) hcur).1
          refine ⟨List.Nodup.erase v hnd, ?_, ?_⟩
          · intro u hu
            have h1 := (hnd.mem_erase_iff).mp hu
            have h2 := (hc2v (st.part.getD v 0) hcur).2.1 u h1.2
            exact ⟨h2.1, by rw [getD_set_ne h1.1]; exact h2.2⟩
          · intro u hu hpu
            by_cases huv : u = v
            · rw [huv, getD_set_self hvl] at hpu
              exact absurd hpu.symm (fun hh => hne hh.symm)
            · rw [getD_set_ne huv] at hpu
              exact (hnd.mem_erase_iff).mpr
                ⟨huv, (hc2v (st.part.getD v 0) hcur).2.2 u hu hpu⟩
        · rw [hBother c hcnew hccur]
          refine ⟨(hc2v c hc).1, ?_, ?_⟩
          · intro u hu
            have h2 := (hc2v c hc).2.1 u hu
            have huv : u ≠ v := by
              intro he
              rw [he] at h2
              exact hccur h2.2.symm
            exact ⟨h2.1, by rw [getD_set_ne huv]; exact h2.2⟩
          · intro u hu hpu
            by_cases huv : u = v
            · rw [huv, getD_set_self hvl] at hpu
              exact absurd hpu (fun hh => hcnew hh.symm)
            · rw [getD_set_ne huv] at hpu
              exact (hc2v c hc).2.2 u hu hpu
  · cases h

/-- One vertex evaluation with the degree map and `m` that `louvain`
supplies preserves the invariant and never decreases Newman's
modularity: a completed evaluation either leaves the state unchanged
or applies a move whose computed gain `inc` exceeds the positive
threshold, and the modularity change of that move is
`inc + 2*(degree(v)/m)² > 0`. -/
theorem evalVertex_mono {g : UGraph} {w? : Option (Nat → ℚ)} {th : ℚ}
    {st st' : SweepSt} {v : Nat}
    (hWF : WFg g) (hInv : InvSt g st) (hth : 0 < th) (hv : v < g.n)
    (h : evalVertex g w? (kwOf g w?) (sumKw g (kwOf g w?)) th st v = .ok st') :
    InvSt g st' ∧ Qmod g w? st.part ≤ Qmod g w? st'.part := by
  unfold evalVertex at h
  split at h
  · cases h
  · rename_i d hd
    split at h
    · cases h
    · rename_i pr inc newcom hbc
      split at h
      · rename_i hif
        obtain ⟨-, -, hdisj, -⟩ :=
          bestCand_spec (candsOf st g v) (0, st.part.getD v 0) (inc, newcom)
            (le_refl 0) hbc
        have hpos : (0 : ℚ) < inc := lt_trans hth hif
        rcases hdisj with heq | ⟨hinc0, hmemc, hdel⟩
        · have h0 : inc = 0 := congrArg Prod.fst heq
          rw [h0] at hpos
          exact absurd hpos (lt_irrefl 0)
        · have hne : newcom ≠ st.part.getD v 0 := candsOf_ne_current hmemc
          have hnc : newcom < g.n := candsOf_lt hWF hInv.2.1 hmemc
          have hincnil : incident g v ≠ [] := candsOf_incident_ne_nil hmemc
          cases w? with
          | some wf =>
            exfalso
            unfold deltas at hdel
            rw [deltaRaw_some_error hincnil] at hdel
            cases hdel
          | none =>
            obtain ⟨hinCur, hloop, hdz⟩ := dCompute_none_ok hd
            subst hdz
            have hcur : st.part.getD v 0 < g.n := hInv.2.1 v hv
            have hmem_cur : ∀ u, u ∈ st.c2v (st.part.getD v 0) ↔
                (u < g.n ∧ st.part.getD u 0 = st.part.getD v 0) := fun u =>
              ⟨fun hu => (hInv.2.2 _ hcur).2.1 u hu,
               fun hpair => (hInv.2.2 _ hcur).2.2 u hpair.1 hpair.2⟩
            have hmem_nc : ∀ u, u ∈ st.c2v newcom ↔
                (u < g.n ∧ st.part.getD u 0 = newcom) := fun u =>
              ⟨fun hu => (hInv.2.2 _ hnc).2.1 u hu,
               fun hpair => (hInv.2.2 _ hnc).2.2 u hpair.1 hpair.2⟩
            have hvnn : v ∉ st.c2v newcom := fun hmm =>
              hne ((hmem_nc v).mp hmm).2.symm
            have hmpos : 0 < sumKw g (kwOf g none) := sumKw_none_pos hv hincnil
            have hm : sumKw g (kwOf g none) ≠ 0 := ne_of_gt hmpos
            rw [deltas_none_eq hvnn hm] at hdel
            injection hdel with hdel
            dsimp only at hdel
            have hb1 : specEdgeW g none v (st.c2v newcom) =
                dMass g none st.part v newcom := specEdgeW_eq_dMass hWF hmem_nc
            have hb2 : ((st.c2v newcom).map (kwOf g none)).sum =
                Smass g (kwOf g none) st.part newcom :=
              listsum_eq_Smass (hInv.2.2 _ hnc).1 hmem_nc
            have hb3 : ((st.c2v (st.part.getD v 0)).map (kwOf g none)).sum =
                Smass g (kwOf g none) st.part (st.part.getD v 0) :=
              listsum_eq_Smass (hInv.2.2 _ hcur).1 hmem_cur
            have hb4 : dMass g none st.part v (st.part.getD v 0) = 0 := by
              refine dMass_cur_zero hWF hmem_cur ?_
              unfold inCurOf at hinCur
              exact hinCur
            obtain ⟨hInv2, hpart2⟩ := moveStep_ok_Inv hInv hv hnc hne h
            refine ⟨hInv2, ?_⟩
            rw [hpart2]
            have hvl : v < st.part.length := by rw [hInv.1]; exact hv
            rw [@Qmod_set g none st.part v newcom hv hvl hcur hnc hne hm, hb4]
            have hincval : inc =
                2 * ((dMass g none st.part v newcom - 0) -
                  (kwOf g none v / sumKw g (kwOf g none)) *
                  (Smass g (kwOf g none) st.part newcom -
                    (Smass g (kwOf g none) st.part (st.part.getD v 0) -
                      kwOf g none v) + kwOf g none v)) /
                  sumKw g (kwOf g none) := by
              rw [← hdel, hb1, hb2]
              unfold s2Of
              rw [hb3]
            have hgain : 2 * (dMass g none st.part v newcom - 0) /
                  sumKw g (kwOf g none) -
                2 * kwOf g none v *
                  (Smass g (kwOf g none) st.part newcom -
                    (Smass g (kwOf g none) st.part (st.part.getD v 0) -
                      kwOf g none v)) / (sumKw g (kwOf g none)) ^ 2 =
                inc + 2 * (kwOf g none v) ^ 2 / (sumKw g (kwOf g none)) ^ 2 := by
              rw [hincval]
              field_simp
              ring
            have hsq : 0 ≤ 2 * (kwOf g none v) ^ 2 /
                (sumKw g (kwOf g none)) ^ 2 := by positivity
            linarith [hgain, hpos, hsq]
      · cases h
        exact ⟨hInv, le_refl _⟩

/-- A completed sweep preserves the invariant and never decreases
Newman's modularity. -/
theorem sweep_mono {g : UGraph} {w? : Option (Nat → ℚ)} {th : ℚ}
    {st st' : SweepSt} (hWF : WFg g) (hInv : InvSt g st) (hth : 0 < th)
    (h : sweep g w? (kwOf g w?) (sumKw g (kwOf g w?)) th st = .ok st') :
    InvSt g st' ∧ Qmod g w? st.part ≤ Qmod g w? st'.part := by
  unfold sweep at h
  exact foldM_preserve
    (evalVertex g w? (kwOf g w?) (sumKw g (kwOf g w?)) th)
    (fun s => InvSt g s ∧ Qmod g w? st.part ≤ Qmod g w? s.part)
    (List.range g.n)
    (fun s a s1 ha hP hstep =>
      let h2 := evalVertex_mono hWF hP.1 hth (List.mem_range.mp ha) hstep
      ⟨h2.1, le_trans hP.2 h2.2⟩)
    (⟨st.part, st.c2v, false⟩ : SweepSt) st' ⟨hInv, le_refl _⟩ h

/-- A vertex is reassigned only on the strength of an actually computed
candidate gain that strictly exceeds the threshold and dominates every
other computed candidate gain. -/
theorem evalVertex_move_gain {g : UGraph} {w? : Option (Nat → ℚ)}
    {kw : Nat → ℚ} {m th : ℚ} {st st' : SweepSt} {v : Nat}
    (hth : 0 < th) (h : evalVertex g w? kw m th st v = .ok st')
    (hchanged : st'.part ≠ st.part) :
    ∃ d inc newcom,
      dCompute w? (inCurOf st g v) (selfLoop g v) = .ok d ∧
      newcom ∈ candsOf st g v ∧
      deltas g v st.c2v newcom (s2Of st kw v) d w? (some kw) (some m) =
        .ok inc ∧
      th < inc ∧
      ∀ nc ∈ candsOf st g v, ∀ dq,
        deltas g v st.c2v nc (s2Of st kw v) d w? (some kw) (some m) =
          .ok dq → dq ≤ inc := by
  unfold evalVertex at h
  split at h
  · cases h
  · rename_i d hd
    split at h
    · cases h
    · rename_i pr inc newcom hbc
      split at h
      · rename_i hif
        obtain ⟨-, -, hdisj, hbest⟩ :=
          bestCand_spec (candsOf st g v) (0, st.part.getD v 0) (inc, newcom)
            (le_refl 0) hbc
        have hpos : (0 : ℚ) < inc := lt_trans hth hif
        rcases hdisj with heq | ⟨-, hmemc, hdel⟩
        · have h0 : inc = 0 := congrArg Prod.fst heq
          rw [h0] at hpos
          exact absurd hpos (lt_irrefl 0)
        · exact ⟨d, inc, newcom, hd, hmemc, hdel, hif, hbest⟩
      · cases h
        exact absurd rfl hchanged

/-- Claim C4: in every sweep of `louvain_step`, a vertex is reassigned
only when its best candidate gain — a gain `deltas` actually computed,
dominating every other computed candidate gain — strictly exceeds the
positive threshold (first conjunct, for any degree map and any `m`);
and, with the degree map and `m` that `louvain` supplies, Newman's
modularity of the working partition after a completed full sweep is
greater than or equal to its modularity before the sweep (second
conjunct), because every applied move changes the modularity by its
computed gain plus `2*(degree(v)/m)² > threshold > 0`. -/
theorem claim4_sweep_monotone :
    (∀ (g : UGraph) (w? : Option (Nat → ℚ)) (kw : Nat → ℚ) (m th : ℚ)
       (st st' : SweepSt) (v : Nat), 0 < th →
       evalVertex g w? kw m th st v = .ok st' → st'.part ≠ st.part →
       ∃ d inc newcom,
         dCompute w? (inCurOf st g v) (selfLoop g v) = .ok d ∧
         newcom ∈ candsOf st g v ∧
         deltas g v st.c2v newcom (s2Of st kw v) d w? (some kw) (some m) =
           .ok inc ∧
         th < inc ∧
         ∀ nc ∈ candsOf st g v, ∀ dq,
           deltas g v st.c2v nc (s2Of st kw v) d w? (some kw) (some m) =
             .ok dq → dq ≤ inc) ∧
    (∀ (g : UGraph) (w? : Option (Nat → ℚ)) (th : ℚ) (st : SweepSt)
       (q : List Nat), WFg g → InvSt g st → 0 < th →
       sweepPart g w? (kwOf g w?) (sumKw g (kwOf g w?)) th st = .ok q →
       Qmod g w? st.part ≤ Qmod g w? q) := by
  constructor
  · intro g w? kw m th st st' v hth h hchanged
    exact evalVertex_move_gain hth h hchanged
  · intro g w? th st q hWF hInv hth h
    unfold sweepPart at h
    cases hs : sweep g w? (kwOf g w?) (sumKw g (kwOf g w?)) th st with
    | error e => rw [hs] at h; cases h
    | ok st1 =>
      rw [hs] at h
      injection h with h1
      rw [← h1]
      exact (sweep_mono hWF hInv hth hs).2

/-- Witness for C4: on the star with centre `0` and leaves `1,2,3`
(no weights, threshold `1e-5`), the first sweep completes after moving
vertices `1` and `2` into the centre's community, and the modularity
indeed does not decrease: `Q` rises from `-1/3` to `-1/18`. -/
theorem claim4_witness :
    Qmod gStar4 none [0, 1, 2, 3] ≤ Qmod gStar4 none [0, 0, 0, 3] :=
  claim4_sweep_monotone.2 gStar4 none (1 / 100000)
    ⟨[0, 1, 2, 3], reverse_dict [0, 1, 2, 3] 4, true⟩ [0, 0, 0, 3]
    (by unfold WFg; decide) (by unfold InvSt; decide)
    (by with_unfolding_all decide) (by with_unfolding_all decide)

/-! ## C10: the caller's property maps are never written -/

theorem getD_append_length {l : List (List Nat)} {a d : List Nat} :
    (l ++ [a]).getD l.length d = a := by
  induction l with
  | nil => rfl
  | cons b t ih => exact ih

theorem set_append_length {l : List (List Nat)} {a b : List Nat} :
    (l ++ [a]).set l.length b = l ++ [b] := by
  induction l with
  | nil => rfl
  | cons c t ih => simp only [List.cons_append, List.length_cons, List.set_cons_succ, ih]

theorem heapSweepStep_sim {g : UGraph} {w? : Option (Nat → ℚ)}
    {kw : Nat → ℚ} {m th : ℚ} {heap : List (List Nat)}
    {hs hs' : List (List Nat) × (Nat → List Nat) × Bool} {st : SweepSt}
    {v : Nat} (hSync : SyncSt heap hs st)
    (h : heapSweepStep g w? kw m th heap.length hs v = .ok hs') :
    ∃ st', evalVertex g w? kw m th st v = .ok st' ∧ SyncSt heap hs' st' := by
  obtain ⟨h1, h2, h3⟩ := hSync
  unfold heapSweepStep at h
  have hread : (⟨hs.1.getD heap.length [], hs.2.1, hs.2.2⟩ : SweepSt) = st := by
    rw [h1, h2, h3, getD_append_length]
  rw [hread] at h
  cases he : evalVertex g w? kw m th st v with
  | error e => rw [he] at h; cases h
  | ok st2 =>
    rw [he] at h
    injection h with h4
    refine ⟨st2, rfl, ?_⟩
    rw [← h4]
    refine ⟨?_, rfl, rfl⟩
    dsimp only
    rw [h1, set_append_length]

theorem heapFold_sim {g : UGraph} {w? : Option (Nat → ℚ)}
    {kw : Nat → ℚ} {m th : ℚ} {heap : List (List Nat)} :
    ∀ (l : List Nat) (hs : List (List Nat) × (Nat → List Nat) × Bool)
      (st : SweepSt), SyncSt heap hs st →
      ∀ hs', foldM (heapSweepStep g w? kw m th heap.length) hs l = .ok hs' →
      ∃ st', foldM (evalVertex g w? kw m th) st l = .ok st' ∧
        SyncSt heap hs' st' := by
  intro l
  induction l with
  | nil =>
    intro hs st hSync hs' h
    injection h with h1
    exact ⟨st, rfl, h1 ▸ hSync⟩
  | cons a t ih =>
    intro hs st hSync hs' h
    unfold foldM at h
    cases hstep : heapSweepStep g w? kw m th heap.length hs a with
    | error e => rw [hstep] at h; cases h
    | ok hs1 =>
      rw [hstep] at h
      obtain ⟨st1, he1, hSync1⟩ := heapSweepStep_sim hSync hstep
      obtain ⟨st', he', hSync'⟩ := ih hs1 st1 hSync1 hs' h
      refine ⟨st', ?_, hSync'⟩
      unfold foldM
      rw [he1]
      exact he'

theorem heapSweep_sim {g : UGraph} {w? : Option (Nat → ℚ)}
    {kw : Nat → ℚ} {m th : ℚ} {heap : List (List Nat)}
    {hs hs' : List (List Nat) × (Nat → List Nat) × Bool} {st : SweepSt}
    (hSync : SyncSt heap hs st)
    (h : heapSweep g w? kw m th heap.length hs = .ok hs') :
    ∃ st', sweep g w? kw m th st = .ok st' ∧ SyncSt heap hs' st' := by
  unfold heapSweep at h
  unfold sweep
  exact heapFold_sim (List.range g.n) (hs.1, hs.2.1, false)
    (⟨st.part, st.c2v, false⟩ : SweepSt) ⟨hSync.1, hSync.2.1, rfl⟩ hs' h

theorem heapLoop_sim {g : UGraph} {w? : Option (Nat → ℚ)}
    {kw : Nat → ℚ} {m th : ℚ} {heap : List (List Nat)} :
    ∀ (fuel : Nat) (hs hs' : List (List Nat) × (Nat → List Nat) × Bool)
      (st : SweepSt), SyncSt heap hs st →
      heapLoop g w? kw m th heap.length fuel hs = some (.ok hs') →
      ∃ st', sweepLoop g w? kw m th fuel st = some (.ok st') ∧
        SyncSt heap hs' st' := by
  intro fuel
  induction fuel with
  | zero => intro hs hs' st _ h; cases h
  | succ k ih =>
    intro hs hs' st hSync h
    unfold heapLoop at h
    cases hsw : heapSweep g w? kw m th heap.length hs with
    | error e => rw [hsw] at h; cases h
    | ok hs1 =>
      rw [hsw] at h
      obtain ⟨st1, he1, hSync1⟩ := heapSweep_sim hSync hsw
      dsimp only at h
      unfold sweepLoop
      rw [he1]
      dsimp only
      rw [← hSync1.2.2]
      split at h
      · rename_i hch
        rw [if_pos hch]
        exact ih hs1 hs' st1 hSync1 h
      · rename_i hch
        rw [if_neg hch]
        injection h with h1
        injection h1 with h2
        exact ⟨st1, rfl, h2 ▸ hSync1⟩

/-- Claim C10: `louvain_step` leaves every property map the caller
holds untouched.  At store level, a successful run extends the store by
exactly one cell — the fresh copy allocated by
`g.copy_property(partition)` — returns that fresh address, and the
final content of the fresh cell is exactly the partition the pure
semantics computes from (an unmutated copy of) the cell at the
caller's address `ip`; every pre-existing cell, in particular the seed
partition at `ip`, has its original content in the final store.  The
graph and the weight map admit no write operation anywhere in the
embedded algorithm, so only partition maps needed modelling. -/
theorem claim10_no_caller_mutation (g : UGraph) (heap : List (List Nat))
    (ip : Nat) (th : ℚ) (w? : Option (Nat → ℚ)) (m? : Option ℚ)
    (kw? : Option (Nat → ℚ)) (fuel : Nat) (h2 : List (List Nat)) (wp : Nat)
    (h : louvain_stepH g heap ip th w? m? kw? fuel = some (.ok (h2, wp))) :
    wp = heap.length ∧
    ∃ out, louvain_step g (heap.getD ip []) th w? m? kw? fuel =
        some (.ok out) ∧ h2 = heap ++ [out] := by
  unfold louvain_stepH at h
  cases hl : heapLoop g w? (optKw g w? kw?) (effM g (optKw g w? kw?) m?) th
      heap.length fuel
      (heap ++ [heap.getD ip []], reverse_dict (heap.getD ip []) g.n, true) with
  | none => rw [hl] at h; cases h
  | some r =>
    rw [hl] at h
    cases r with
    | error e => cases h
    | ok hs =>
      injection h with h1
      injection h1 with h3
      have hwp : wp = heap.length := (congrArg Prod.snd h3).symm
      have hh2 : h2 = hs.1 := (congrArg Prod.fst h3).symm
      obtain ⟨st', hloop', hSync'⟩ := heapLoop_sim fuel _ hs
        ⟨heap.getD ip [], reverse_dict (heap.getD ip []) g.n, true⟩
        ⟨rfl, rfl, rfl⟩ hl
      refine ⟨hwp, st'.part, ?_, ?_⟩
      · unfold louvain_step
        rw [hloop']
      · rw [hh2, hSync'.1]

/-- Witness for C10: the caller's store holds the single partition
`[0, 1]` at address 0; after `louvain_step` runs on the single-edge
graph, the store still holds `[0, 1]` at address 0, extended by the
fresh working copy. -/
theorem claim10_witness :
    (1 : Nat) = ([[0, 1]] : List (List Nat)).length ∧
    ∃ out, louvain_step gEdge (([[0, 1]] : List (List Nat)).getD 0 [])
        (1 / 100000) none none none 5 = some (.ok out) ∧
      ([[0, 1], [0, 1]] : List (List Nat)) = [[0, 1]] ++ [out] :=
  claim10_no_caller_mutation gEdge [[0, 1]] 0 (1 / 100000) none none none 5
    [[0, 1], [0, 1]] 1 (by with_unfolding_all decide)
